import Mathlib

/-!
Formal model of the Lorenz attractor visualizer (`src/main.rs`).

The program has two stateful components: a simulator (`State`) that advances a
Lorenz trajectory by explicit Euler steps and keeps a bounded trail of visited
points in a `VecDeque`, and an orbit camera (`OrbitCamera`) driven by pointer
input.  We embed both shallowly:

* `f32` values are modelled as exact rationals (`ℚ`) for the simulator, whose
  claims concern exact algebraic identities, and as exact reals (`ℝ`) for the
  camera, whose clamping constants involve `π/2`.  This follows the spec's
  design note that the formula, not a particular floating-point bit pattern,
  is the portable contract.
* the `VecDeque` trail becomes a `List` whose head is the deque front (oldest
  point) and whose last element is the deque back (newest point);
  `push_back` is append, `pop_front` drops the head.
* `points.back().unwrap()` can panic on an empty deque, so the step loop is
  modelled in `Option`: `none` means the Rust code would have panicked.
* pointer and wheel input read from the windowing backend inside
  `OrbitCamera::update` is modelled as an explicit `Input` argument.
-/

/-- Model of `macroquad::math::Vec3` restricted to what the program uses:
a triple of coordinates, modelled over `ℚ`. -/
structure Vec3 where
  x : ℚ
  y : ℚ
  z : ℚ
deriving DecidableEq, Repr

/-- Componentwise vector addition (`impl Add for Vec3`). -/
def Vec3.add (a b : Vec3) : Vec3 :=
  ⟨a.x + b.x, a.y + b.y, a.z + b.z⟩

/-- Scalar multiplication `v * c` (`impl Mul<f32> for Vec3`). -/
def Vec3.smul (v : Vec3) (c : ℚ) : Vec3 :=
  ⟨v.x * c, v.y * c, v.z * c⟩

/-- The Lorenz vector field, from `fn lorenz` in `src/main.rs`:
`x = sigma*(p.y-p.x); y = p.x*(rho-p.z)-p.y; z = p.x*p.y-beta*p.z`. -/
def lorenz (p : Vec3) (sigma beta rho : ℚ) : Vec3 :=
  let x := sigma * (p.y - p.x)
  let y := p.x * (rho - p.z) - p.y
  let z := p.x * p.y - beta * p.z
  ⟨x, y, z⟩

/-- One explicit Euler step, from `fn lorenz_integrate`:
`let d = lorenz(p, sigma, beta, rho); *p + d * dt`. -/
def lorenz_integrate (p : Vec3) (sigma beta rho dt : ℚ) : Vec3 :=
  let d := lorenz p sigma beta rho
  p.add (d.smul dt)

/-- The simulator state, from `struct State`.  `points` models the
`VecDeque<Vec3>` trail: list head = deque front (oldest), list last =
deque back (newest). -/
structure State where
  sigma : ℚ
  beta : ℚ
  rho : ℚ
  dt : ℚ
  tail : ℚ
  speed : ℚ
  start : Vec3
  points : List Vec3
deriving DecidableEq, Repr

/-- Model of a Rust `f32 as usize` cast (truncation toward zero, saturating
at 0 for negative values), applied to `self.tail` and `self.speed` in
`State::step`.  For a non-negative rational, truncation equals the floor. -/
def ratToUsize (q : ℚ) : ℕ :=
  (Int.floor q).toNat

/-- Initial simulator state, from `State::new`. -/
def State.new : State :=
  let start : Vec3 := ⟨0, 1, 1.05⟩
  { sigma := 10
    beta := 8 / 3
    rho := 28
    dt := 0.005
    tail := 5000
    speed := 10
    start := start
    points := [start] }

/-- The eviction loop of `State::step`:
`while self.points.len() > max_len { self.points.pop_front(); }`.
Each iteration pops the front (list head); it terminates because each pop
removes one element, so structural recursion on the list is exact. -/
def evict (maxLen : ℕ) : List Vec3 → List Vec3
  | [] => []
  | p :: rest =>
    if maxLen < (p :: rest).length then evict maxLen rest else p :: rest

/-- One iteration of the `for` loop body in `State::step`: read the deque
back (`back().unwrap()` — `none` models the panic on an empty deque),
push the integrated point at the back, then run the eviction loop. -/
def stepIter (sigma beta rho dt : ℚ) (maxLen : ℕ) (pts : List Vec3) :
    Option (List Vec3) :=
  match pts.getLast? with
  | none => none
  | some p =>
    some (evict maxLen (pts ++ [lorenz_integrate p sigma beta rho dt]))

/-- The `for _ in 0..self.speed as usize` loop of `State::step`, iterated on
the trail. -/
def stepLoop (sigma beta rho dt : ℚ) (maxLen : ℕ) :
    ℕ → List Vec3 → Option (List Vec3)
  | 0, pts => some pts
  | n + 1, pts =>
    match stepIter sigma beta rho dt maxLen pts with
    | none => none
    | some pts1 => stepLoop sigma beta rho dt maxLen n pts1

/-- `State::step`: `max_len = self.tail as usize`, then `self.speed as usize`
iterations of integrate-push-evict.  `none` models the `unwrap` panic. -/
def State.step (s : State) : Option State :=
  (stepLoop s.sigma s.beta s.rho s.dt (ratToUsize s.tail) (ratToUsize s.speed)
      s.points).map (fun pts => { s with points := pts })

/-- Body of the `reset params` button in `draw_ui`: sets `sigma`, `beta`,
`rho` back to the defaults and touches nothing else. -/
def State.reset_params (s : State) : State :=
  { s with sigma := 10, beta := 8 / 3, rho := 28 }

/-- Body of the `reset position` button in `draw_ui`:
`points.clear()` followed by `points.push_back(state.start)`. -/
def State.reset_position (s : State) : State :=
  { s with points := [s.start] }

/-- One rendered trail segment as emitted by `State::draw`: the two endpoints
handed to `draw_line_3d` and the opacity passed via `with_alpha`.  The hue
computed from the segment length is part of the external rendering backend's
color and is not modelled. -/
structure Segment where
  a : Vec3
  b : Vec3
  alpha : ℚ
deriving DecidableEq, Repr

/-- The trail-to-segments projection of `State::draw`:
`points.iter().tuple_windows().enumerate()` yields the adjacent pairs
`(points[i], points[i+1])` with index `i`, and the opacity is
`i as f32 / self.points.len() as f32`. -/
def State.segments (s : State) : List Segment :=
  ((s.points.zip s.points.tail).enum).map
    (fun q => { a := q.2.1, b := q.2.2,
                alpha := (q.1 : ℚ) / (s.points.length : ℚ) })

/-! Spec-side definitions, written from the specification's own words, used
only to state refinement claims against the source-derived definitions. -/

/-- The derivative as written in the spec:
`dx = sigma*(y - x)`, `dy = x*(rho - z) - y`, `dz = x*y - beta*z`. -/
def spec_derivative (p : Vec3) (sigma beta rho : ℚ) : Vec3 :=
  ⟨sigma * (p.y - p.x), p.x * (rho - p.z) - p.y, p.x * p.y - beta * p.z⟩

/-- The Euler step as written in the spec:
`p' = p + derivative(p, sigma, beta, rho) * dt`. -/
def spec_euler_step (p : Vec3) (sigma beta rho dt : ℚ) : Vec3 :=
  p.add ((spec_derivative p sigma beta rho).smul dt)

/-- C2: for every point and coefficients, `lorenz` computes exactly the
Lorenz vector field of the spec, and `lorenz_integrate` returns exactly
`p + derivative(p, sigma, beta, rho) * dt`.  Both are Lean functions of their
arguments alone, so purity (no side effects, determinism) holds by
construction. -/
theorem claim_C2_euler_step (p : Vec3) (sigma beta rho dt : ℚ) :
    lorenz p sigma beta rho = spec_derivative p sigma beta rho ∧
    lorenz_integrate p sigma beta rho dt = spec_euler_step p sigma beta rho dt :=
  ⟨rfl, rfl⟩

/-- C4: `reset params` sets `(sigma, beta, rho)` to exactly `(10, 8/3, 28)`
and leaves `dt`, `tail`, `speed`, the start point, and the trail unchanged. -/
theorem claim_C4_reset_params (s : State) :
    s.reset_params.sigma = 10 ∧ s.reset_params.beta = 8 / 3 ∧
    s.reset_params.rho = 28 ∧ s.reset_params.dt = s.dt ∧
    s.reset_params.tail = s.tail ∧ s.reset_params.speed = s.speed ∧
    s.reset_params.start = s.start ∧ s.reset_params.points = s.points :=
  ⟨rfl, rfl, rfl, rfl, rfl, rfl, rfl, rfl⟩

/-- C5: whatever the trail held before, after `reset position` the trail has
length exactly 1 and its sole element is the start point `(0, 1, 1.05)`
(`1.05 = 21/20` exactly in the rational model). -/
theorem claim_C5_reset_position (s : State) (h : s.start = ⟨0, 1, 21 / 20⟩) :
    s.reset_position.points.length = 1 ∧
    s.reset_position.points = [⟨0, 1, 21 / 20⟩] :=
  ⟨rfl, by simp [State.reset_position, h]⟩

/-- Witness for C5 at the state built by `State::new`, whose start point is
`(0, 1, 1.05)`. -/
theorem claim_C5_reset_position_witness :
    State.new.start = ⟨0, 1, 21 / 20⟩ ∧
    (State.new.reset_position.points.length = 1 ∧
      State.new.reset_position.points = [⟨0, 1, 21 / 20⟩]) :=
  ⟨by norm_num [State.new], claim_C5_reset_position State.new (by norm_num [State.new])⟩

/-- C9: from the initial trail `[(0, 1, 1.05)]` with `sigma = 10`,
`beta = 8/3`, `rho = 28`, `dt = 0.005` and `stepsPerFrame = 1`, one `step()`
produces a trail of length 2 whose new last point is exactly the Euler-formula
value `(0.05, 0.995, 1.036) = (1/20, 199/200, 259/250)`. -/
theorem claim_C9_seeded_scenario :
    ({ State.new with speed := 1 } : State).step =
      some { State.new with
             speed := 1
             points := [⟨0, 1, 21 / 20⟩, ⟨1 / 20, 199 / 200, 259 / 250⟩] } ∧
    lorenz_integrate ⟨0, 1, 21 / 20⟩ 10 (8 / 3) 28 (1 / 200) =
      ⟨1 / 20, 199 / 200, 259 / 250⟩ := by
  constructor
  · simp [State.step, State.new, stepLoop, stepIter, evict, ratToUsize,
      lorenz_integrate, lorenz, Vec3.add, Vec3.smul]
    norm_num
  · simp [lorenz_integrate, lorenz, Vec3.add, Vec3.smul]
    norm_num

/-! Helper lemmas about the eviction loop and the step loop. -/

/-- Eviction repeats until the bound holds: the result never exceeds
`maxLen`. -/
theorem evict_length (maxLen : ℕ) : ∀ pts : List Vec3,
    (evict maxLen pts).length ≤ maxLen := by
  intro pts
  induction pts with
  | nil => simp [evict]
  | cons p rest ih =>
    rw [evict]
    split
    · exact ih
    · omega

/-- Eviction only pops from the front: the result is a suffix of the input. -/
theorem evict_suffix (maxLen : ℕ) : ∀ pts : List Vec3,
    List.IsSuffix (evict maxLen pts) pts := by
  intro pts
  induction pts with
  | nil => exact List.suffix_refl _
  | cons p rest ih =>
    rw [evict]
    split
    · exact ih.trans (List.suffix_cons p rest)
    · exact List.suffix_refl _

/-- With a positive bound, eviction never empties a non-empty trail. -/
theorem evict_ne_nil (maxLen : ℕ) (hm : 1 ≤ maxLen) : ∀ pts : List Vec3,
    pts ≠ [] → evict maxLen pts ≠ [] := by
  intro pts
  induction pts with
  | nil => simp
  | cons p rest ih =>
    intro _
    rw [evict]
    split
    · rename_i hlt
      refine ih ?_
      simp only [List.length_cons] at hlt
      intro hrest
      rw [hrest] at hlt
      simp at hlt
      omega
    · simp

/-- A non-empty suffix has the same last element as the full list. -/
theorem suffix_getLast? {l₁ l₂ : List Vec3} (h : List.IsSuffix l₁ l₂)
    (hne : l₁ ≠ []) : l₂.getLast? = l₁.getLast? := by
  obtain ⟨t, rfl⟩ := h
  rw [List.getLast?_append]
  cases hl : l₁.getLast? with
  | some a => rfl
  | none => exact absurd (List.getLast?_eq_none_iff.mp hl) hne

/-- Appending on the right preserves the suffix relation. -/
theorem isSuffix_append_right {l₁ l₂ : List Vec3} (h : List.IsSuffix l₁ l₂)
    (t : List Vec3) : List.IsSuffix (l₁ ++ t) (l₂ ++ t) := by
  obtain ⟨u, rfl⟩ := h
  exact ⟨u, (List.append_assoc u l₁ t).symm⟩

/-- Unfolding of a successful `stepIter`: the back existed and the result is
the evicted extension. -/
theorem stepIter_some {sigma beta rho dt : ℚ} {maxLen : ℕ}
    {pts pts1 : List Vec3}
    (h : stepIter sigma beta rho dt maxLen pts = some pts1) :
    ∃ p, pts.getLast? = some p ∧
      pts1 = evict maxLen (pts ++ [lorenz_integrate p sigma beta rho dt]) := by
  unfold stepIter at h
  cases hl : pts.getLast? with
  | none => rw [hl] at h; exact absurd h (by simp)
  | some p =>
    rw [hl] at h
    exact ⟨p, rfl, (Option.some.injEq _ _ ▸ h).symm⟩

/-- After at least one loop iteration, the trail respects the bound. -/
theorem stepLoop_some_length (sigma beta rho dt : ℚ) (maxLen : ℕ) :
    ∀ (n : ℕ) (pts pts1 : List Vec3), 1 ≤ n →
      stepLoop sigma beta rho dt maxLen n pts = some pts1 →
      pts1.length ≤ maxLen := by
  intro n
  induction n with
  | zero => omega
  | succ n ih =>
    intro pts pts1 _ h
    rw [stepLoop] at h
    cases hIter : stepIter sigma beta rho dt maxLen pts with
    | none => rw [hIter] at h; exact absurd h (by simp)
    | some ptsMid =>
      rw [hIter] at h
      obtain ⟨p, _, hmid⟩ := stepIter_some hIter
      cases n with
      | zero =>
        have h0 : some ptsMid = some pts1 := h
        cases h0
        exact hmid ▸ evict_length maxLen _
      | succ k => exact ih ptsMid pts1 (by omega) h

/-- With a positive bound, the step loop never panics and never empties a
non-empty trail. -/
theorem stepLoop_ne_nil (sigma beta rho dt : ℚ) (maxLen : ℕ)
    (hm : 1 ≤ maxLen) : ∀ (n : ℕ) (pts : List Vec3), pts ≠ [] →
      ∃ pts1, stepLoop sigma beta rho dt maxLen n pts = some pts1 ∧
        pts1 ≠ [] := by
  intro n
  induction n with
  | zero => intro pts h; exact ⟨pts, rfl, h⟩
  | succ n ih =>
    intro pts h
    cases hl : pts.getLast? with
    | none => exact absurd (List.getLast?_eq_none_iff.mp hl) h
    | some p =>
      have hmid : evict maxLen (pts ++ [lorenz_integrate p sigma beta rho dt]) ≠ [] :=
        evict_ne_nil maxLen hm _ (by simp)
      obtain ⟨pts1, h1, h2⟩ := ih _ hmid
      refine ⟨pts1, ?_, h2⟩
      rw [stepLoop, stepIter, hl]
      exact h1

/-- The `n`-th Euler iterate of a point under the integration step; `iterate 0`
is the point itself. -/
def iterate (sigma beta rho dt : ℚ) (p : Vec3) : ℕ → Vec3
  | 0 => p
  | n + 1 => lorenz_integrate (iterate sigma beta rho dt p n) sigma beta rho dt

/-- The list of the next `n` points the step loop computes from a trail whose
back is `p`: iterates `1` through `n`. -/
def future (sigma beta rho dt : ℚ) (p : Vec3) (n : ℕ) : List Vec3 :=
  (List.range n).map (fun k => iterate sigma beta rho dt p (k + 1))

/-- Shifting the base point of the iteration by one step. -/
theorem iterate_shift (sigma beta rho dt : ℚ) (p : Vec3) : ∀ n : ℕ,
    iterate sigma beta rho dt p (n + 1) =
      iterate sigma beta rho dt (lorenz_integrate p sigma beta rho dt) n := by
  intro n
  induction n with
  | zero => rfl
  | succ k ih => rw [iterate, ih, iterate]

/-- Unfolding one step of the future-point list. -/
theorem future_succ (sigma beta rho dt : ℚ) (p : Vec3) (n : ℕ) :
    future sigma beta rho dt p (n + 1) =
      lorenz_integrate p sigma beta rho dt ::
        future sigma beta rho dt (lorenz_integrate p sigma beta rho dt) n := by
  unfold future
  rw [List.range_succ_eq_map, List.map_cons, List.map_map]
  refine congrArg₂ _ rfl ?_
  refine List.map_congr_left ?_
  intro k _
  simp only [Function.comp_apply]
  rw [← iterate_shift]

/-- Main loop invariant: a successful run of the step loop with a positive
bound produces a suffix of the original trail extended by the next `n`
iterates, the last of which is the trail's new back element. -/
theorem stepLoop_spec (sigma beta rho dt : ℚ) (maxLen : ℕ) (hm : 1 ≤ maxLen) :
    ∀ (n : ℕ) (pts pts1 : List Vec3) (p : Vec3), pts.getLast? = some p →
      stepLoop sigma beta rho dt maxLen n pts = some pts1 →
      List.IsSuffix pts1 (pts ++ future sigma beta rho dt p n) ∧
        pts1.getLast? = some (iterate sigma beta rho dt p n) := by
  intro n
  induction n with
  | zero =>
    intro pts pts1 p hp h
    have h0 : some pts = some pts1 := h
    cases h0
    constructor
    · simp [future]
    · exact hp
  | succ n ih =>
    intro pts pts1 p hp h
    rw [stepLoop, stepIter, hp] at h
    set q := lorenz_integrate p sigma beta rho dt with hq
    set ptsMid := evict maxLen (pts ++ [q]) with hmid
    have hMidNe : ptsMid ≠ [] := evict_ne_nil maxLen hm _ (by simp)
    have hMidSuffix : List.IsSuffix ptsMid (pts ++ [q]) := evict_suffix maxLen _
    have hMidLast : ptsMid.getLast? = some q := by
      rw [← suffix_getLast? hMidSuffix hMidNe, List.getLast?_concat]
    obtain ⟨hSuf, hLast⟩ := ih ptsMid pts1 q hMidLast h
    constructor
    · refine hSuf.trans ?_
      rw [future_succ, ← hq]
      have h1 : List.IsSuffix (ptsMid ++ future sigma beta rho dt q n)
          ((pts ++ [q]) ++ future sigma beta rho dt q n) :=
        isSuffix_append_right hMidSuffix _
      rw [List.append_assoc, List.singleton_append] at h1
      exact h1
    · rw [hLast, ← iterate_shift]

/-- C1: after any successful `step()` call (with `stepsPerFrame` at least 1,
as the UI guarantees, and a non-negative `tailLength`), the trail length is
at most the current `tailLength`; moreover the eviction loop removes only
front (oldest) points — its result is a suffix of its input — and repeats
until the bound holds, whatever the bound and trail.  The state `s` is
universally quantified, so this covers any interleaving of `step()` calls
with arbitrary user changes to `tail`, including reductions below the
current trail length. -/
theorem claim_C1_trail_bound (s t : State)
    (hspeed : 1 ≤ ratToUsize s.speed) (htail : 0 ≤ s.tail)
    (h : s.step = some t) :
    (t.points.length : ℚ) ≤ s.tail ∧
    (∀ (m : ℕ) (pts : List Vec3), (evict m pts).length ≤ m) ∧
    (∀ (m : ℕ) (pts : List Vec3), List.IsSuffix (evict m pts) pts) := by
  refine ⟨?_, evict_length, evict_suffix⟩
  unfold State.step at h
  cases hsl : stepLoop s.sigma s.beta s.rho s.dt (ratToUsize s.tail)
      (ratToUsize s.speed) s.points with
  | none => rw [hsl] at h; exact absurd h (by simp)
  | some pts1 =>
    rw [hsl] at h
    simp only [Option.map_some'] at h
    injection h with ht
    have hlen : pts1.length ≤ ratToUsize s.tail :=
      stepLoop_some_length s.sigma s.beta s.rho s.dt (ratToUsize s.tail)
        (ratToUsize s.speed) s.points pts1 hspeed hsl
    have hfl : (0 : ℤ) ≤ Int.floor s.tail := Int.floor_nonneg.mpr htail
    have hcast : ((ratToUsize s.tail : ℚ)) = ((Int.floor s.tail : ℤ) : ℚ) := by
      rw [ratToUsize]
      norm_cast
      exact Int.toNat_of_nonneg hfl
    calc (t.points.length : ℚ)
        = (pts1.length : ℚ) := by rw [← ht]
      _ ≤ (ratToUsize s.tail : ℚ) := by exact_mod_cast hlen
      _ = ((Int.floor s.tail : ℤ) : ℚ) := hcast
      _ ≤ s.tail := Int.floor_le s.tail

/-- Witness state for the C1 bound: one point, `tail = 1`, `speed = 1`, all
coefficients zero so the integrated point is again the origin. -/
def stateC1 : State :=
  { sigma := 0, beta := 0, rho := 0, dt := 0, tail := 1, speed := 1,
    start := ⟨0, 0, 0⟩, points := [⟨0, 0, 0⟩] }

/-- Witness for C1: the hypotheses hold at `stateC1`, whose `step()` keeps
the single-point trail, and the bound follows from the theorem. -/
theorem claim_C1_trail_bound_witness :
    1 ≤ ratToUsize stateC1.speed ∧ 0 ≤ stateC1.tail ∧
    stateC1.step = some stateC1 ∧
    ((stateC1.points.length : ℚ) ≤ stateC1.tail ∧
      (∀ (m : ℕ) (pts : List Vec3), (evict m pts).length ≤ m) ∧
      (∀ (m : ℕ) (pts : List Vec3), List.IsSuffix (evict m pts) pts)) := by
  have h1 : 1 ≤ ratToUsize stateC1.speed := by norm_num [stateC1, ratToUsize]
  have h2 : 0 ≤ stateC1.tail := by norm_num [stateC1]
  have h3 : stateC1.step = some stateC1 := by
    simp [stateC1, State.step, stepLoop, stepIter, evict, ratToUsize,
      lorenz_integrate, lorenz, Vec3.add, Vec3.smul]
  exact ⟨h1, h2, h3, claim_C1_trail_bound stateC1 stateC1 h1 h2 h3⟩

/-- C6: a successful `step()` on a state with a non-empty trail (and a
positive trail bound, as the UI slider guarantees) performs exactly
`speed as usize` integration steps in sequence: the new trail is a suffix of
the old trail followed by the successive Euler iterates of its last point
(so chronological order is kept and eviction causes no reordering), and the
new last element is the most recently integrated point, the
`speed as usize`-th iterate. -/
theorem claim_C6_chronology (s t : State) (p : Vec3)
    (hm : 1 ≤ ratToUsize s.tail)
    (hp : s.points.getLast? = some p)
    (h : s.step = some t) :
    List.IsSuffix t.points
      (s.points ++ future s.sigma s.beta s.rho s.dt p (ratToUsize s.speed)) ∧
    t.points.getLast? =
      some (iterate s.sigma s.beta s.rho s.dt p (ratToUsize s.speed)) := by
  unfold State.step at h
  cases hsl : stepLoop s.sigma s.beta s.rho s.dt (ratToUsize s.tail)
      (ratToUsize s.speed) s.points with
  | none => rw [hsl] at h; exact absurd h (by simp)
  | some pts1 =>
    rw [hsl] at h
    simp only [Option.map_some'] at h
    injection h with ht
    have hspec := stepLoop_spec s.sigma s.beta s.rho s.dt (ratToUsize s.tail)
      hm (ratToUsize s.speed) s.points pts1 p hp hsl
    rw [← ht]
    exact hspec

/-- Witness state for C6: one point, `tail = 2`, `speed = 3`, zero
coefficients so each integrate returns the origin again; `step()` grows the
trail to two points and eviction keeps it there. -/
def stateC6 : State :=
  { sigma := 0, beta := 0, rho := 0, dt := 0, tail := 2, speed := 3,
    start := ⟨0, 0, 0⟩, points := [⟨0, 0, 0⟩] }

/-- Witness for C6 at `stateC6`, whose `step()` yields the two-point trail
of origins. -/
theorem claim_C6_chronology_witness :
    1 ≤ ratToUsize stateC6.tail ∧
    stateC6.points.getLast? = some ⟨0, 0, 0⟩ ∧
    stateC6.step = some { stateC6 with points := [⟨0, 0, 0⟩, ⟨0, 0, 0⟩] } ∧
    (List.IsSuffix ({ stateC6 with points := [⟨0, 0, 0⟩, ⟨0, 0, 0⟩] } : State).points
      (stateC6.points ++
        future stateC6.sigma stateC6.beta stateC6.rho stateC6.dt ⟨0, 0, 0⟩
          (ratToUsize stateC6.speed)) ∧
    ({ stateC6 with points := [⟨0, 0, 0⟩, ⟨0, 0, 0⟩] } : State).points.getLast? =
      some (iterate stateC6.sigma stateC6.beta stateC6.rho stateC6.dt ⟨0, 0, 0⟩
        (ratToUsize stateC6.speed))) := by
  have h1 : 1 ≤ ratToUsize stateC6.tail := by norm_num [stateC6, ratToUsize]
  have h2 : stateC6.points.getLast? = some ⟨0, 0, 0⟩ := by
    simp [stateC6]
  have h3 : stateC6.step = some { stateC6 with points := [⟨0, 0, 0⟩, ⟨0, 0, 0⟩] } := by
    simp [stateC6, State.step, stepLoop, stepIter, evict, ratToUsize,
      lorenz_integrate, lorenz, Vec3.add, Vec3.smul]
  exact ⟨h1, h2, h3,
    claim_C6_chronology stateC6 { stateC6 with points := [⟨0, 0, 0⟩, ⟨0, 0, 0⟩] }
      ⟨0, 0, 0⟩ h1 h2 h3⟩

/-- C10: with a non-empty trail and a trail bound of at least 1 (the UI
slider keeps `tail` at least 10), `step()` never reads from an empty trail —
the `unwrap` never panics, modelled as `step` returning `some` — and the
trail is still non-empty afterwards; both `State::new` and the reset-position
action establish a non-empty trail. -/
theorem claim_C10_no_panic (s : State) (h1 : s.points ≠ [])
    (h2 : 1 ≤ ratToUsize s.tail) :
    (∃ t, s.step = some t ∧ t.points ≠ []) ∧
    State.new.points ≠ [] ∧ (∀ u : State, u.reset_position.points ≠ []) := by
  refine ⟨?_, by simp [State.new], fun u => by simp [State.reset_position]⟩
  obtain ⟨pts1, hsl, hne⟩ := stepLoop_ne_nil s.sigma s.beta s.rho s.dt
    (ratToUsize s.tail) h2 (ratToUsize s.speed) s.points h1
  refine ⟨{ s with points := pts1 }, ?_, hne⟩
  unfold State.step
  rw [hsl]
  rfl

/-- Witness for C10 at the start-up state `State::new`. -/
theorem claim_C10_no_panic_witness :
    State.new.points ≠ [] ∧ 1 ≤ ratToUsize State.new.tail ∧
    ((∃ t, State.new.step = some t ∧ t.points ≠ []) ∧
      State.new.points ≠ [] ∧ (∀ u : State, u.reset_position.points ≠ [])) := by
  have h1 : State.new.points ≠ [] := by simp [State.new]
  have h2 : 1 ≤ ratToUsize State.new.tail := by norm_num [State.new, ratToUsize]
  exact ⟨h1, h2, claim_C10_no_panic State.new h1 h2⟩

/-- C8: in the trail-to-segments projection of `State::draw`, the `i`-th
segment (0-indexed from oldest, over adjacent pairs of trail points) gets
opacity exactly `i / N` where `N` is the number of trail points, so among the
emitted segments opacity strictly increases with the index: the newest
segment is the most opaque and the oldest the least. -/
theorem claim_C8_segment_opacity (s : State) :
    (∀ (i : ℕ) (h : i < s.segments.length),
        (s.segments.get ⟨i, h⟩).alpha = (i : ℚ) / (s.points.length : ℚ)) ∧
    (∀ (i j : ℕ) (hi : i < s.segments.length) (hj : j < s.segments.length),
        i < j →
        (s.segments.get ⟨i, hi⟩).alpha < (s.segments.get ⟨j, hj⟩).alpha) := by
  have halpha : ∀ (i : ℕ) (h : i < s.segments.length),
      (s.segments.get ⟨i, h⟩).alpha = (i : ℚ) / (s.points.length : ℚ) := by
    intro i h
    simp [State.segments, List.get_eq_getElem]
  refine ⟨halpha, ?_⟩
  intro i j hi hj hij
  rw [halpha i hi, halpha j hj]
  have hlen : s.segments.length ≤ s.points.length := by
    simp [State.segments]
  have hN : (0 : ℚ) < (s.points.length : ℚ) := by
    have : 0 < s.points.length := by omega
    exact_mod_cast this
  exact (div_lt_div_iff_of_pos_right hN).mpr (by exact_mod_cast hij)

/-- Witness state for C8: a four-point trail, so three segments with
opacities `0/4 < 1/4 < 2/4`. -/
def stateC8 : State :=
  { sigma := 0, beta := 0, rho := 0, dt := 0, tail := 10, speed := 1,
    start := ⟨0, 0, 0⟩,
    points := [⟨0, 0, 0⟩, ⟨1, 0, 0⟩, ⟨2, 0, 0⟩, ⟨3, 0, 0⟩] }

/-- Witness for C8 at `stateC8`: the middle segment's opacity is `1/4` and
opacity grows from the oldest segment to the newest. -/
theorem claim_C8_segment_opacity_witness :
    (stateC8.segments.get ⟨1, by decide⟩).alpha =
      (1 : ℚ) / (stateC8.points.length : ℚ) ∧
    (stateC8.segments.get ⟨0, by decide⟩).alpha <
      (stateC8.segments.get ⟨2, by decide⟩).alpha := by
  exact ⟨(claim_C8_segment_opacity stateC8).1 1 (by decide),
    (claim_C8_segment_opacity stateC8).2 0 2 (by decide) (by decide) (by omega)⟩

/-! The orbit camera.  Camera arithmetic involves `π/2`, trigonometry and
square roots, so it is modelled over the exact reals. -/

/-- Model of `macroquad::math::Vec2` (pointer positions) over `ℝ`. -/
structure RVec2 where
  x : ℝ
  y : ℝ

/-- Componentwise `Vec2` subtraction, used for pointer deltas. -/
noncomputable def RVec2.sub (a b : RVec2) : RVec2 :=
  ⟨a.x - b.x, a.y - b.y⟩

/-- Model of `macroquad::math::Vec3` over `ℝ` for camera geometry. -/
structure RVec3 where
  x : ℝ
  y : ℝ
  z : ℝ

/-- Componentwise `Vec3` addition. -/
noncomputable def RVec3.add (a b : RVec3) : RVec3 :=
  ⟨a.x + b.x, a.y + b.y, a.z + b.z⟩

/-- Componentwise `Vec3` subtraction. -/
noncomputable def RVec3.sub (a b : RVec3) : RVec3 :=
  ⟨a.x - b.x, a.y - b.y, a.z - b.z⟩

/-- Scalar multiplication `v * c`. -/
noncomputable def RVec3.smul (v : RVec3) (c : ℝ) : RVec3 :=
  ⟨v.x * c, v.y * c, v.z * c⟩

/-- The cross product (`Vec3::cross`). -/
noncomputable def RVec3.cross (a b : RVec3) : RVec3 :=
  ⟨a.y * b.z - a.z * b.y, a.z * b.x - a.x * b.z, a.x * b.y - a.y * b.x⟩

/-- The Euclidean norm (`Vec3::length`). -/
noncomputable def RVec3.length (v : RVec3) : ℝ :=
  Real.sqrt (v.x * v.x + v.y * v.y + v.z * v.z)

/-- `Vec3::normalize`: the vector scaled by the reciprocal of its norm. -/
noncomputable def RVec3.normalize (v : RVec3) : RVec3 :=
  v.smul (1 / v.length)

/-- Rust's `f32::clamp(lo, hi)`: returns `lo` if the value is below `lo`,
`hi` if above `hi`, the value otherwise (for `lo ≤ hi`). -/
noncomputable def clampR (x lo hi : ℝ) : ℝ :=
  min (max x lo) hi

/-- The camera state, from `struct OrbitCamera`.  The `Option` fields are the
last-seen pointer positions of the two drag gestures, `None` when the
corresponding button is up. -/
structure OrbitCamera where
  distance : ℝ
  yaw : ℝ
  pitch : ℝ
  sensitivity : ℝ
  pan_sensitivity : ℝ
  target : RVec3
  last_left_mouse : Option RVec2
  last_right_mouse : Option RVec2

/-- Initial camera, from `OrbitCamera::new`. -/
noncomputable def OrbitCamera.new : OrbitCamera :=
  { distance := 100
    yaw := 0
    pitch := 0
    sensitivity := 0.005
    pan_sensitivity := 0.001
    target := ⟨0, 0, 0⟩
    last_left_mouse := none
    last_right_mouse := none }

/-- Derived eye position, from `OrbitCamera::get_position`: spherical
coordinates around `target`. -/
noncomputable def OrbitCamera.get_position (c : OrbitCamera) : RVec3 :=
  let x := c.distance * Real.cos c.pitch * Real.sin c.yaw
  let y := c.distance * Real.sin c.pitch
  let z := c.distance * Real.cos c.pitch * Real.cos c.yaw
  c.target.add ⟨x, y, z⟩

/-- The per-frame input `OrbitCamera::update` reads from the windowing
backend: the two button states, the pointer position, and the vertical
scroll-wheel delta. -/
structure Input where
  left_down : Bool
  right_down : Bool
  mouse : RVec2
  wheel_y : ℝ

/-- First block of `OrbitCamera::update` (the left-button orbit gesture):
while the button is down and a last sample exists, apply the pointer delta to
`yaw` and `pitch`, clamping pitch to `[-FRAC_PI_2 + 0.1, FRAC_PI_2 - 0.1]`
(`FRAC_PI_2` modelled as `π/2`), and record the pointer; on a fresh press
only record the pointer; when the button is up, clear the sample. -/
noncomputable def OrbitCamera.orbit_step (c : OrbitCamera) (inp : Input) :
    OrbitCamera :=
  if inp.left_down then
    match c.last_left_mouse with
    | some last =>
      let delta := inp.mouse.sub last
      { c with
        yaw := c.yaw - delta.x * c.sensitivity
        pitch := clampR (c.pitch + delta.y * c.sensitivity)
          (-(Real.pi / 2) + 0.1) (Real.pi / 2 - 0.1)
        last_left_mouse := some inp.mouse }
    | none => { c with last_left_mouse := some inp.mouse }
  else { c with last_left_mouse := none }

/-- Second block of `OrbitCamera::update` (the right-button pan gesture):
while the button is down and a last sample exists, shift `target` along the
view-plane basis scaled by the pointer delta, pan sensitivity and distance. -/
noncomputable def OrbitCamera.pan_step (c : OrbitCamera) (inp : Input) :
    OrbitCamera :=
  if inp.right_down then
    match c.last_right_mouse with
    | some last =>
      let forward := (c.target.sub c.get_position).normalize
      let right := (forward.cross ⟨0, 1, 0⟩).normalize
      let up := (right.cross forward).normalize
      let delta := inp.mouse.sub last
      let t1 := c.target.sub (right.smul (delta.x * c.pan_sensitivity * c.distance))
      let t2 := t1.add (up.smul (delta.y * c.pan_sensitivity * c.distance))
      { c with target := t2, last_right_mouse := some inp.mouse }
    | none => { c with last_right_mouse := some inp.mouse }
  else { c with last_right_mouse := none }

/-- Final block of `OrbitCamera::update`: unconditionally apply the wheel
delta to `distance` (`distance -= wheel * 5.0`) and clamp to `[1, 200]`. -/
noncomputable def OrbitCamera.zoom_step (c : OrbitCamera) (inp : Input) :
    OrbitCamera :=
  { c with distance := clampR (c.distance - inp.wheel_y * 5) 1 200 }

/-- `OrbitCamera::update`: the orbit block, then the pan block, then the
zoom/clamp block, in the order of the source. -/
noncomputable def OrbitCamera.update (c : OrbitCamera) (inp : Input) :
    OrbitCamera :=
  ((c.orbit_step inp).pan_step inp).zoom_step inp

/-- A whole sequence of `update()` calls with arbitrary per-frame input. -/
noncomputable def updates (c : OrbitCamera) (inps : List Input) : OrbitCamera :=
  inps.foldl OrbitCamera.update c

/-! Helper lemmas about the camera update blocks. -/

/-- Clamping never exceeds the upper bound. -/
theorem clampR_le_hi (x lo hi : ℝ) : clampR x lo hi ≤ hi :=
  min_le_right _ _

/-- With ordered bounds, clamping never goes below the lower bound. -/
theorem lo_le_clampR (x lo hi : ℝ) (h : lo ≤ hi) : lo ≤ clampR x lo hi :=
  le_min (le_max_right x lo) h

/-- The pan block never changes `distance`, `yaw`, `pitch`, or the orbit
gesture's last sample. -/
theorem pan_step_proj (c : OrbitCamera) (inp : Input) :
    (c.pan_step inp).distance = c.distance ∧
    (c.pan_step inp).yaw = c.yaw ∧
    (c.pan_step inp).pitch = c.pitch ∧
    (c.pan_step inp).last_left_mouse = c.last_left_mouse := by
  cases hrd : inp.right_down <;>
    cases hlast : c.last_right_mouse <;>
      simp [OrbitCamera.pan_step, hrd, hlast]

/-- The zoom block never changes `yaw`, `pitch`, or the orbit gesture's last
sample. -/
theorem zoom_step_proj (c : OrbitCamera) (inp : Input) :
    (c.zoom_step inp).yaw = c.yaw ∧
    (c.zoom_step inp).pitch = c.pitch ∧
    (c.zoom_step inp).last_left_mouse = c.last_left_mouse :=
  ⟨rfl, rfl, rfl⟩

/-- After the zoom block, and hence after `update`, `distance` lies in
`[1, 200]` whatever it was before. -/
theorem update_distance_mem (c : OrbitCamera) (inp : Input) :
    1 ≤ (c.update inp).distance ∧ (c.update inp).distance ≤ 200 := by
  refine ⟨lo_le_clampR _ _ _ (by norm_num), clampR_le_hi _ _ _⟩

/-- A clamped value lies strictly between any strictly wider bounds. -/
theorem clampR_mem (x lo hi lo2 hi2 : ℝ) (h : lo ≤ hi) (hlo : lo2 < lo)
    (hhi : hi < hi2) : lo2 < clampR x lo hi ∧ clampR x lo hi < hi2 :=
  ⟨lt_of_lt_of_le hlo (lo_le_clampR x lo hi h),
    lt_of_le_of_lt (clampR_le_hi x lo hi) hhi⟩

/-- The orbit block either leaves `pitch` unchanged or clamps it into
`[-π/2 + 0.1, π/2 - 0.1]`; in both cases a pitch strictly inside
`(-π/2, π/2)` stays strictly inside. -/
theorem orbit_step_pitch_mem (c : OrbitCamera) (inp : Input)
    (h1 : -(Real.pi / 2) < c.pitch) (h2 : c.pitch < Real.pi / 2) :
    -(Real.pi / 2) < (c.orbit_step inp).pitch ∧
      (c.orbit_step inp).pitch < Real.pi / 2 := by
  have hpi : (3 : ℝ) < Real.pi := Real.pi_gt_three
  have hlohi : -(Real.pi / 2) + 0.1 ≤ Real.pi / 2 - 0.1 := by linarith
  cases hld : inp.left_down with
  | false =>
    simp [OrbitCamera.orbit_step, hld]
    exact ⟨h1, h2⟩
  | true =>
    cases hlast : c.last_left_mouse with
    | none =>
      simp [OrbitCamera.orbit_step, hld, hlast]
      exact ⟨h1, h2⟩
    | some last =>
      simp [OrbitCamera.orbit_step, hld, hlast]
      exact clampR_mem _ _ _ _ _ hlohi (by linarith) (by linarith)

/-- A single `update` keeps `pitch` strictly inside `(-π/2, π/2)`. -/
theorem update_pitch_mem (c : OrbitCamera) (inp : Input)
    (h1 : -(Real.pi / 2) < c.pitch) (h2 : c.pitch < Real.pi / 2) :
    -(Real.pi / 2) < (c.update inp).pitch ∧
      (c.update inp).pitch < Real.pi / 2 := by
  have hz := (zoom_step_proj ((c.orbit_step inp).pan_step inp) inp).2.1
  have hp := (pan_step_proj (c.orbit_step inp) inp).2.2.1
  have := orbit_step_pitch_mem c inp h1 h2
  unfold OrbitCamera.update
  rw [hz, hp]
  exact this

/-- C3: starting from any camera with `distance` in `[1, 200]` and `pitch`
strictly inside `(-π/2, π/2)`, after any sequence of `update()` calls with
arbitrary pointer positions, button states and scroll deltas, `distance` is
still within `[1, 200]` and `pitch` still strictly inside `(-π/2, π/2)`. -/
theorem claim_C3_camera_invariant (c : OrbitCamera) (inps : List Input)
    (hd1 : 1 ≤ c.distance) (hd2 : c.distance ≤ 200)
    (hp1 : -(Real.pi / 2) < c.pitch) (hp2 : c.pitch < Real.pi / 2) :
    1 ≤ (updates c inps).distance ∧ (updates c inps).distance ≤ 200 ∧
    -(Real.pi / 2) < (updates c inps).pitch ∧
      (updates c inps).pitch < Real.pi / 2 := by
  induction inps generalizing c with
  | nil => exact ⟨hd1, hd2, hp1, hp2⟩
  | cons inp rest ih =>
    have hd := update_distance_mem c inp
    have hp := update_pitch_mem c inp hp1 hp2
    exact ih (c.update inp) hd.1 hd.2 hp.1 hp.2

/-- A sample frame input used by the camera witnesses: left button held,
pointer at `(3, 4)`, one wheel notch. -/
noncomputable def inputW : Input :=
  { left_down := true, right_down := false, mouse := ⟨3, 4⟩, wheel_y := 1 }

/-- Witness for C3 at the start-up camera (`distance = 100`, `pitch = 0`)
over a one-frame input sequence. -/
theorem claim_C3_camera_invariant_witness :
    (1 ≤ OrbitCamera.new.distance ∧ OrbitCamera.new.distance ≤ 200 ∧
      -(Real.pi / 2) < OrbitCamera.new.pitch ∧
      OrbitCamera.new.pitch < Real.pi / 2) ∧
    (1 ≤ (updates OrbitCamera.new [inputW]).distance ∧
      (updates OrbitCamera.new [inputW]).distance ≤ 200 ∧
      -(Real.pi / 2) < (updates OrbitCamera.new [inputW]).pitch ∧
      (updates OrbitCamera.new [inputW]).pitch < Real.pi / 2) := by
  have hpi : (3 : ℝ) < Real.pi := Real.pi_gt_three
  have h1 : 1 ≤ OrbitCamera.new.distance := by norm_num [OrbitCamera.new]
  have h2 : OrbitCamera.new.distance ≤ 200 := by norm_num [OrbitCamera.new]
  have h3 : -(Real.pi / 2) < OrbitCamera.new.pitch := by
    show -(Real.pi / 2) < 0
    linarith
  have h4 : OrbitCamera.new.pitch < Real.pi / 2 := by
    show (0 : ℝ) < Real.pi / 2
    linarith
  exact ⟨⟨h1, h2, h3, h4⟩,
    claim_C3_camera_invariant OrbitCamera.new [inputW] h1 h2 h3 h4⟩

/-- C7: if the previous `update()` saw the orbit button released (so the
last-seen left sample is `None`), then an `update()` with the left button
held — at an arbitrary pointer position — changes neither `yaw` nor `pitch`:
it only records the pointer as the fresh baseline. -/
theorem claim_C7_fresh_press (c : OrbitCamera) (inp : Input)
    (hnone : c.last_left_mouse = none) (hdown : inp.left_down = true) :
    (c.update inp).yaw = c.yaw ∧ (c.update inp).pitch = c.pitch ∧
    (c.update inp).last_left_mouse = some inp.mouse := by
  have horbit : c.orbit_step inp = { c with last_left_mouse := some inp.mouse } := by
    simp [OrbitCamera.orbit_step, hdown, hnone]
  have hpan := pan_step_proj (c.orbit_step inp) inp
  have hzoom := zoom_step_proj ((c.orbit_step inp).pan_step inp) inp
  unfold OrbitCamera.update
  refine ⟨?_, ?_, ?_⟩
  · rw [hzoom.1, hpan.2.1, horbit]
  · rw [hzoom.2.1, hpan.2.2.1, horbit]
  · rw [hzoom.2.2, hpan.2.2.2, horbit]

/-- Witness for C7 at the start-up camera (whose left sample is `None`) and
the sample input with the left button held. -/
theorem claim_C7_fresh_press_witness :
    OrbitCamera.new.last_left_mouse = none ∧ inputW.left_down = true ∧
    ((OrbitCamera.new.update inputW).yaw = OrbitCamera.new.yaw ∧
      (OrbitCamera.new.update inputW).pitch = OrbitCamera.new.pitch ∧
      (OrbitCamera.new.update inputW).last_left_mouse = some inputW.mouse) :=
  ⟨rfl, rfl, claim_C7_fresh_press OrbitCamera.new inputW rfl rfl⟩
